import Mathlib

/-! Verification of the notnow task store (src/tasks.rs) and its undo/redo
operation log. Shared handles (`Rc<Task>`) are modelled as natural-number
addresses into an explicit heap of task records; the interior mutability of
`Task` (`RefCell<TaskInner>`) becomes functional update of the heap entry at
an address, and an owned, deep-copied `Task` value is a plain record.
`src/db.rs`, `src/ops.rs` and `src/tags.rs` are not among the sources; the
definitions taken from the specification instead are marked below. -/

namespace NotNow

/-- The record behind a task handle: mirrors `TaskInner` in src/tasks.rs
(id, summary, tags as a set of tag ids, and the shared tag-template registry
reference, modelled by the registry's contents). -/
structure TaskInner where
  id : Nat
  summary : String
  tags : List Nat
  templates : List Nat
deriving DecidableEq

/-- The heap of live task records; an `Rc<Task>` handle is an index into it. -/
abbrev Heap := List TaskInner

/-- The identity of the task behind handle `a`. -/
def taskId (h : Heap) (a : Nat) : Option Nat := (h[a]?).map TaskInner.id

/-- The store state: the heap of shared task records plus the ordered task
sequence `Db<Task>` (a list of handles). -/
structure Store where
  heap : Heap
  db : List Nat
deriving DecidableEq

/-- Modelled from the spec: `Db::find` (src/db.rs is missing from the
sources) returns the first position whose stored handle denotes the same
logical entity — identity equality, not value equality (spec 4.2). -/
def dbFind (h : Heap) (db : List Nat) (t : Nat) : Option Nat :=
  db.findIdx? fun a => taskId h a == taskId h t

/-- Modelled from the spec: `Db::try_insert` (src/db.rs is missing from the
sources) — positional insert keeping the store invariant that each identity
appears at most once; fails on an out-of-range index or an already present
identity (spec 4.2 and 3). -/
def tryInsert (h : Heap) (db : List Nat) (i : Nat) (t : Nat) : Option (List Nat) :=
  if i ≤ db.length ∧ dbFind h db t = none then some (db.insertIdx i t) else none

/-- Modelled from the spec: `Db::try_push` — append, i.e. insert at `len`
(spec 4.2). -/
def tryPush (h : Heap) (db : List Nat) (t : Nat) : Option (List Nat) :=
  tryInsert h db db.length t

/-- src/tasks.rs `Target`: the spot before or after the referenced task. -/
inductive Target where
  | before (task : Nat)
  | after (task : Nat)
deriving DecidableEq

/-- src/tasks.rs `Target::task`: the handle a target references. -/
def Target.task : Target → Nat
  | .before t => t
  | .after t => t

/-- src/tasks.rs `add_task`: insert relative to the optional target
(`Before` at the target's index, `After` right after it) or append. -/
def addTask (s : Store) (task : Nat) (target : Option Target) : Option (Store × Nat) :=
  match target with
  | some tgt =>
    match dbFind s.heap s.db tgt.task with
    | some idx =>
      let idx := match tgt with | .before _ => idx | .after _ => idx + 1
      (tryInsert s.heap s.db idx task).map fun db => ({ s with db := db }, task)
    | none => none
  | none => (tryPush s.heap s.db task).map fun db => ({ s with db := db }, task)

/-- src/tasks.rs `remove_task`: find the task by identity, remove it and
return the removed handle together with the index it occupied. -/
def removeTask (s : Store) (task : Nat) : Option (Store × Nat × Nat) :=
  match dbFind s.heap s.db task with
  | some idx =>
    match s.db[idx]? with
    | some removed => some ({ s with db := s.db.eraseIdx idx }, removed, idx)
    | none => none
  | none => none

/-- src/tasks.rs `update_task` together with `Task::update_from`: deep-copy
the task's current record as the result, then overwrite the live record
wholesale, in place through the shared handle. -/
def updateTask (s : Store) (task : Nat) (other : TaskInner) : Option (Store × TaskInner) :=
  (s.heap[task]?).map fun before => ({ s with heap := s.heap.set task other }, before)

/-- src/tasks.rs `TaskOp`: one reversible operation, carrying the mutable
slots (`position`, `before`, `task`) that `exec` populates for `undo`. -/
inductive TaskOp where
  | add (task : Nat) (after : Option Nat)
  | remove (task : Nat) (position : Option Nat)
  | update (task : Nat) (updated : TaskInner) (before : Option TaskInner)
  | move (fromIdx : Nat) (target : Target) (task : Option Nat)
deriving DecidableEq

/-- src/tasks.rs `impl Op for TaskOp`, `exec`: apply the forward mutation,
filling the op's undo slot; returns the op as mutated, the new store state
and the result (`Option<Rc<Task>>`). An overall `none` models a panic. -/
def TaskOp.exec : TaskOp → Store → Option (TaskOp × Store × Option Nat)
  | .add task after, s =>
    (addTask s task (after.map Target.after)).map fun p =>
      (.add task after, p.1, some p.2)
  | .remove task _position, s =>
    (removeTask s task).map fun p => (.remove task (some p.2.2), p.1, none)
  | .update task updated _before, s =>
    (updateTask s task updated).map fun p =>
      (.update task updated (some p.2), p.1, some task)
  | .move fromIdx target _task, s =>
    match s.db[fromIdx]? with
    | some removed =>
      (addTask { s with db := s.db.eraseIdx fromIdx } removed (some target)).map fun p =>
        (.move fromIdx target (some removed), p.1, some p.2)
    | none => none

/-- src/tasks.rs `impl Op for TaskOp`, `undo`: invert `exec` exactly, using
the slot recorded by `exec`; the op itself is left unmodified. -/
def TaskOp.undo : TaskOp → Store → Option (Store × Option Nat)
  | .add task _after, s => (removeTask s task).map fun p => (p.1, none)
  | .remove task position, s =>
    match position with
    | some idx =>
      (tryInsert s.heap s.db idx task).map fun db => ({ s with db := db }, some task)
    | none => none
  | .update task _updated before, s =>
    match before with
    | some b =>
      match updateTask s task b with
      | some (s', _) =>
        match dbFind s'.heap s'.db task with
        | some idx =>
          match s'.db[idx]? with
          | some t => some (s', some t)
          | none => none
        | none => none
      | none => none
    | none => none
  | .move fromIdx _target taskSlot, s =>
    match taskSlot with
    | some t =>
      match removeTask s t with
      | some (s', removed, _idx) =>
        (tryInsert s'.heap s'.db fromIdx removed).map fun db =>
          ({ s' with db := db }, some removed)
      | none => none
    | none => none

/-- Modelled from the spec: the operation log `Ops` (src/ops.rs is missing
from the sources) — a pair of stacks of operations, top at the head, plus
the maximum history depth (spec 4.4 and 3). -/
structure Ops where
  undoStack : List TaskOp
  redoStack : List TaskOp
  maxCount : Nat
deriving DecidableEq

/-- Modelled from the spec: `Ops::new` — the log starts with both stacks
empty (spec 3, Operation Log lifecycle). -/
def Ops.new (maxCount : Nat) : Ops := ⟨[], [], maxCount⟩

/-- Modelled from the spec: `Ops::exec` — run the operation, push it (as
mutated by its `exec`) onto the undo-stack evicting the oldest entry if the
depth would exceed the bound, and clear the redo-stack entirely (spec 4.4). -/
def Ops.exec (ops : Ops) (op : TaskOp) (s : Store) : Option (Ops × Store × Option Nat) :=
  (op.exec s).map fun p =>
    (⟨(p.1 :: ops.undoStack).take ops.maxCount, [], ops.maxCount⟩, p.2.1, p.2.2)

/-- Modelled from the spec: `Ops::undo` — pop the most recent op, undo it and
push the same op onto the redo-stack. The outer `none` of the result models
a panic; the inner `none` is the explicit nothing-to-undo signal (spec 4.4). -/
def Ops.undo (ops : Ops) (s : Store) : Option (Ops × Store × Option (Option Nat)) :=
  match ops.undoStack with
  | [] => some (ops, s, none)
  | op :: rest =>
    (op.undo s).map fun p => (⟨rest, op :: ops.redoStack, ops.maxCount⟩, p.1, some p.2)

/-- Modelled from the spec: `Ops::redo` — pop the most recent undone op and
re-exec it, pushing it back onto the undo-stack (spec 4.4). -/
def Ops.redo (ops : Ops) (s : Store) : Option (Ops × Store × Option (Option Nat)) :=
  match ops.redoStack with
  | [] => some (ops, s, none)
  | op :: rest =>
    (op.exec s).map fun p => (⟨p.1 :: ops.undoStack, rest, ops.maxCount⟩, p.2.1, some p.2.2)

/-- src/tasks.rs `MAX_UNDO_STEP_COUNT`: the maximum number of undo steps. -/
def MAX_UNDO_STEP_COUNT : Nat := 64

/-- src/tasks.rs `TasksInner` and `Tasks`: the facade pairing the shared
template registry, the store and the operation log. -/
structure Tasks where
  templates : List Nat
  state : Store
  operations : Ops
deriving DecidableEq

/-- src/tasks.rs `Tasks::update`: route an update through the op log. -/
def Tasks.update (t : Tasks) (task : Nat) (updated : TaskInner) : Option Tasks :=
  (t.operations.exec (.update task updated none) t.state).map fun p =>
    { t with operations := p.1, state := p.2.1 }

/-- src/tasks.rs `Tasks::move_before`: a no-op when both handles are the same
shared pointer (`Rc::ptr_eq`, i.e. address equality); otherwise build and run
a Move op whose source index is found by identity. -/
def Tasks.moveBefore (t : Tasks) (toMove other : Nat) : Option Tasks :=
  if toMove = other then some t
  else
    match dbFind t.state.heap t.state.db toMove with
    | some idx =>
      (t.operations.exec (.move idx (.before other) none) t.state).map fun p =>
        { t with operations := p.1, state := p.2.1 }
    | none => none

/-- src/tasks.rs `Tasks::move_after`: like `move_before` with an After
target. -/
def Tasks.moveAfter (t : Tasks) (toMove other : Nat) : Option Tasks :=
  if toMove = other then some t
  else
    match dbFind t.state.heap t.state.db toMove with
    | some idx =>
      (t.operations.exec (.move idx (.after other) none) t.state).map fun p =>
        { t with operations := p.1, state := p.2.1 }
    | none => none

/-- src/ser/tasks.rs `Task`: a serializable task, summary plus tag ids. -/
structure SerTask where
  summary : String
  tags : List Nat
deriving DecidableEq

/-- Modelled from the spec: `Templates::instantiate` (src/tags.rs is missing
from the sources) — a tag is instantiable exactly when its template id is in
the registry, which is modelled by its list of template ids (spec 6). -/
def instantiate (templates : List Nat) (id : Nat) : Option Nat :=
  if id ∈ templates then some id else none

/-- Ordered-set insert, modelling `BTreeSet::insert` on tag ids. -/
def setInsert (x : Nat) : List Nat → List Nat
  | [] => [x]
  | y :: ys => if x < y then x :: y :: ys else if x = y then y :: ys else y :: setInsert x ys

/-- src/tasks.rs `Task::with_serde`, the tag loop: instantiate every tag id
from the registry into the tag set, failing with a validation error on the
first unknown id. -/
def instantiateTags (templates : List Nat) : List Nat → List Nat → Except String (List Nat)
  | [], tags => .ok tags
  | tagId :: rest, tags =>
    match instantiate templates tagId with
    | some tag => instantiateTags templates rest (setInsert tag tags)
    | none => .error ("Encountered invalid tag Id " ++ toString tagId)

/-- src/tasks.rs `Task::with_serde`: instantiate the tags and build the
record. -/
def Task.withSerde (id : Nat) (t : SerTask) (templates : List Nat) :
    Except String TaskInner :=
  match instantiateTags templates t.tags [] with
  | .ok tags => .ok ⟨id, t.summary, tags, templates⟩
  | .error e => .error e

/-- src/tasks.rs `Tasks::with_serde`, the `try_fold` over the serialized
tasks: build every task in order, short-circuiting on the first validation
error. -/
def buildTasks (templates : List Nat) :
    List (Nat × SerTask) → List TaskInner → Except String (List TaskInner)
  | [], vec => .ok vec
  | p :: rest, vec =>
    match Task.withSerde p.1 p.2 templates with
    | .ok task => buildTasks templates rest (vec ++ [task])
    | .error e => .error e

/-- src/tasks.rs `Tasks::with_serde`: build every task, propagating the first
validation error, then the store (handles 0, 1, ... in order) and an empty
op log of depth `MAX_UNDO_STEP_COUNT`. -/
def Tasks.withSerde (tasks : List (Nat × SerTask)) (templates : List Nat) :
    Except String Tasks :=
  match buildTasks templates tasks [] with
  | .ok vec => .ok ⟨templates, ⟨vec, List.range vec.length⟩, Ops.new MAX_UNDO_STEP_COUNT⟩
  | .error e => .error e


/-- Store invariant: the handles in the ordered store denote pairwise
distinct identities (spec 3, Ordered Store invariant (2)). -/
def Inv (s : Store) : Prop :=
  s.db.Pairwise fun a b => taskId s.heap a ≠ taskId s.heap b

instance (s : Store) : Decidable (Inv s) := by
  unfold Inv; infer_instance

/-- Per-operation well-formedness: the handles an operation's `undo` relies
on must denote entities currently in the store, and an update must preserve
the entity's identity — the facade always passes a deep copy of the live
task as the replacement. -/
def WfOp (s : Store) : TaskOp → Prop
  | .remove task _ => task ∈ s.db
  | .update task updated _ => task ∈ s.db ∧ taskId s.heap task = some updated.id
  | _ => True

instance (s : Store) (op : TaskOp) : Decidable (WfOp s op) := by
  cases op <;> simp only [WfOp] <;> infer_instance


/-- Check `WfOp` at each step of executing a list of operations in order. -/
def wfSeqB (s : Store) : List TaskOp → Bool
  | [] => true
  | op :: rest =>
    decide (WfOp s op) &&
      (match op.exec s with
       | some p => wfSeqB p.2.1 rest
       | none => true)

/-- Execute a list of operations in order through the operation log. -/
def execList : List TaskOp → Ops → Store → Option (Ops × Store)
  | [], ops, s => some (ops, s)
  | op :: rest, ops, s =>
    match ops.exec op s with
    | some p => execList rest p.1 p.2.1
    | none => none

/-- Apply `undo` through the operation log `n` times. -/
def undoN : Nat → Ops → Store → Option (Ops × Store)
  | 0, ops, s => some (ops, s)
  | n + 1, ops, s =>
    match ops.undo s with
    | some p => undoN n p.1 p.2.1
    | none => none


/-- The store's user-visible order: the identity at each position. -/
def idSeq (s : Store) : List (Option Nat) := s.db.map (taskId s.heap)

/-- The store's contents: summary and tags at each position. -/
def contentSeq (s : Store) : List (Option (String × List Nat)) :=
  s.db.map fun a => (s.heap[a]?).map fun t => (t.summary, t.tags)

/-- One call to the operation log's public interface. -/
inductive Call where
  | exec (op : TaskOp)
  | undo
  | redo

/-- Run a sequence of exec/undo/redo calls through the log. -/
def runCalls : List Call → Ops → Store → Option (Ops × Store)
  | [], ops, s => some (ops, s)
  | Call.exec op :: rest, ops, s =>
    match ops.exec op s with
    | some p => runCalls rest p.1 p.2.1
    | none => none
  | Call.undo :: rest, ops, s =>
    match ops.undo s with
    | some p => runCalls rest p.1 p.2.1
    | none => none
  | Call.redo :: rest, ops, s =>
    match ops.redo s with
    | some p => runCalls rest p.1 p.2.1
    | none => none


/-- The dual-stack size bound the log maintains, together with the constancy
of its capacity. -/
def OpsBound (ops : Ops) (cap : Nat) : Prop :=
  ops.undoStack.length + ops.redoStack.length ≤ cap ∧ ops.maxCount = cap


/-- Whether an `Except` result is a success. -/
def isOkB {ε α : Type} : Except ε α → Bool
  | .ok _ => true
  | .error _ => false

/-- A heap of 65 distinct tasks, for the history-depth boundary scenarios. -/
def bigHeap : Heap := (List.range 65).map fun i => ⟨i + 1, "", [], []⟩

/-- The 65 Add operations over `bigHeap`, one per handle, in order. -/
def bigAdds : List TaskOp := (List.range 65).map fun a => TaskOp.add a none


/-! Helper lemmas about `findIdx?`, `insertIdx`, `eraseIdx` and `dbFind`. -/

/-- Inserting a fresh match at position `i` makes `findIdx?` return `i`. -/
theorem findIdx?_insertIdx_self {α : Type} {p : α → Bool} {a : α} :
    ∀ (i : Nat) (l : List α), i ≤ l.length → p a = true → l.findIdx? p = none →
      (l.insertIdx i a).findIdx? p = some i := by
  intro i
  induction i with
  | zero =>
    intro l _ hp _
    simp [List.insertIdx_zero, List.findIdx?_cons, hp]
  | succ i ih =>
    intro l hi hp hl
    match l with
    | [] => simp at hi
    | x :: l =>
      rw [List.findIdx?_cons] at hl
      by_cases hpx : p x = true
      · simp [hpx] at hl
      · rw [if_neg hpx, List.findIdx?_succ] at hl
        have hl' : l.findIdx? p = none := by
          cases h : l.findIdx? p <;> simp [h] at hl ⊢
        rw [List.insertIdx_succ_cons, List.findIdx?_cons, if_neg hpx, List.findIdx?_succ,
          ih l (by simpa using hi) hp hl']
        rfl

/-- Re-inserting the element that was at `i` restores the list. -/
theorem insertIdx_eraseIdx_getElem {α : Type} :
    ∀ (i : Nat) (l : List α) (a : α), l[i]? = some a → (l.eraseIdx i).insertIdx i a = l := by
  intro i
  induction i with
  | zero =>
    intro l a h
    cases l <;> simp_all [List.insertIdx_zero]
  | succ i ih =>
    intro l a h
    cases l with
    | nil => simp at h
    | cons x l =>
      rw [List.eraseIdx_cons_succ, List.insertIdx_succ_cons, ih l a (by simpa using h)]

/-- `dbFind` misses exactly when no stored handle has the sought identity. -/
theorem dbFind_eq_none_iff {h : Heap} {db : List Nat} {t : Nat} :
    dbFind h db t = none ↔ ∀ x ∈ db, taskId h x ≠ taskId h t := by
  simp [dbFind, List.findIdx?_eq_none_iff]

/-- A found index is in range. -/
theorem dbFind_lt_length {h : Heap} {db : List Nat} {t i : Nat}
    (hf : dbFind h db t = some i) : i < db.length := by
  rw [dbFind, List.findIdx?_eq_some_iff_getElem] at hf
  exact hf.1

/-- With pairwise distinct identities, `dbFind` of a member handle returns
its own position. -/
theorem dbFind_self_of_mem {h : Heap} {db : List Nat} {t : Nat}
    (hp : db.Pairwise fun a b => taskId h a ≠ taskId h b) (hmem : t ∈ db) :
    ∃ i, dbFind h db t = some i ∧ db[i]? = some t := by
  obtain ⟨k, hk, hget⟩ := List.getElem_of_mem hmem
  have hsome : (dbFind h db t).isSome := by
    rw [dbFind, List.findIdx?_isSome, List.any_eq_true]
    exact ⟨t, hmem, by simp⟩
  obtain ⟨i, hi⟩ := Option.isSome_iff_exists.mp hsome
  obtain ⟨hlt, hpi, hmin⟩ := List.findIdx?_eq_some_iff_getElem.mp hi
  rw [List.pairwise_iff_getElem] at hp
  rcases Nat.lt_trichotomy i k with hik | hik | hik
  · exact absurd (by simpa [← hget] using (beq_iff_eq.mp hpi)) (hp i k hlt hk hik)
  · subst hik
    exact ⟨i, hi, by rw [List.getElem?_eq_getElem hk]; exact congrArg some hget⟩
  · have := hmin k hik
    simp [hget] at this

/-- Erasing a handle's position removes the only match for its identity. -/
theorem dbFind_eraseIdx_none {h : Heap} {db : List Nat} {i t : Nat}
    (hp : db.Pairwise fun a b => taskId h a ≠ taskId h b) (hget : db[i]? = some t) :
    dbFind h (db.eraseIdx i) t = none := by
  obtain ⟨hi, hgi⟩ := List.getElem?_eq_some.mp hget
  rw [dbFind, List.findIdx?_eq_none_iff]
  intro x hx
  obtain ⟨j, hj, hxj⟩ := List.getElem_of_mem hx
  rw [List.pairwise_iff_getElem] at hp
  rcases Nat.lt_or_ge j i with hji | hji
  · have hjlt : j < db.length := by
      have := List.length_eraseIdx_le db i
      omega
    have hgj : db[j] = x := by
      rw [← hxj, List.getElem_eraseIdx_of_lt db i j hj hji]
    have hne : taskId h x ≠ taskId h t := by
      rw [← hgj, ← hgi]
      exact hp j i hjlt hi hji
    simpa using hne
  · have hjlt : j + 1 < db.length := by
      rw [List.length_eraseIdx_of_lt hi] at hj
      omega
    have hgj : db[j + 1] = x := by
      rw [← hxj, List.getElem_eraseIdx_of_ge db i j hj hji]
    have hij : i < j + 1 := by omega
    have hne : taskId h x ≠ taskId h t := by
      rw [← hgj, ← hgi]
      exact Ne.symm (hp i (j + 1) hi hjlt hij)
    simpa using hne

/-- Inserting a fresh handle makes `dbFind` return the insertion point. -/
theorem dbFind_insertIdx_self {h : Heap} {db : List Nat} {t i : Nat}
    (hi : i ≤ db.length) (hnone : dbFind h db t = none) :
    dbFind h (db.insertIdx i t) t = some i :=
  findIdx?_insertIdx_self i db hi (by simp) hnone

/-- Inserting at a position in range is a permutation of consing. -/
theorem insertIdx_perm {α : Type} (a : α) :
    ∀ (i : Nat) (l : List α), i ≤ l.length → (l.insertIdx i a).Perm (a :: l) := by
  intro i
  induction i with
  | zero =>
    intro l _
    simp [List.insertIdx_zero]
  | succ i ih =>
    intro l hl
    cases l with
    | nil => simp at hl
    | cons x l =>
      rw [List.insertIdx_succ_cons]
      exact ((ih l (by simpa using hl)).cons x).trans (List.Perm.swap a x l)

/-- Replacing a record by one with the same identity leaves every handle's
identity unchanged. -/
theorem taskId_set {h : Heap} {a : Nat} {r : TaskInner}
    (hid : taskId h a = some r.id) : ∀ z, taskId (h.set a r) z = taskId h z := by
  intro z
  by_cases hz : z = a
  · subst hz
    have ha : z < h.length := by
      rw [taskId] at hid
      cases hh : h[z]? with
      | none => simp [hh] at hid
      | some v => exact (List.getElem?_eq_some.mp hh).1
    rw [taskId, taskId, List.getElem?_set_self ha]
    simpa using hid.symm
  · rw [taskId, taskId, List.getElem?_set_ne (fun he => hz he.symm)]


/-- When a list entry equals the value written, `set` is the identity. -/
theorem set_of_getElem? {α : Type} {l : List α} {i : Nat} {a : α} (h : l[i]? = some a) :
    l.set i a = l := by
  apply List.ext_getElem?
  intro n
  by_cases hn : n = i
  · subst hn
    rw [List.getElem?_set_self (List.getElem?_eq_some.mp h).1]
    exact h.symm
  · rw [List.getElem?_set_ne (fun he => hn he.symm)]

/-- Inversion for `tryInsert`. -/
theorem tryInsert_eq_some {h : Heap} {db db' : List Nat} {i t : Nat}
    (he : tryInsert h db i t = some db') :
    i ≤ db.length ∧ dbFind h db t = none ∧ db' = db.insertIdx i t := by
  rw [tryInsert] at he
  split at he
  · rename_i hc
    exact ⟨hc.1, hc.2, by simpa using he.symm⟩
  · simp at he

/-- Inversion for `addTask`: it returns the inserted handle, and the new
store inserts that handle (whose identity was absent) at some valid index. -/
theorem addTask_eq_some {s : Store} {t : Nat} {tgt : Option Target} {s' : Store} {res : Nat}
    (he : addTask s t tgt = some (s', res)) :
    res = t ∧ ∃ i, i ≤ s.db.length ∧ dbFind s.heap s.db t = none ∧
      s' = { s with db := s.db.insertIdx i t } := by
  cases tgt with
  | none =>
    rw [addTask, tryPush] at he
    obtain ⟨db', hdb', heq⟩ := Option.map_eq_some'.mp he
    obtain ⟨hle, hnone, rfl⟩ := tryInsert_eq_some hdb'
    cases heq
    exact ⟨rfl, s.db.length, Nat.le_refl _, hnone, rfl⟩
  | some tg =>
    cases tg with
    | before x =>
      simp only [addTask, Target.task] at he
      cases hf : dbFind s.heap s.db x with
      | none => rw [hf] at he; simp at he
      | some idx =>
        rw [hf] at he
        obtain ⟨db', hdb', heq⟩ := Option.map_eq_some'.mp he
        obtain ⟨hle, hnone, rfl⟩ := tryInsert_eq_some hdb'
        cases heq
        exact ⟨rfl, idx, hle, hnone, rfl⟩
    | after x =>
      simp only [addTask, Target.task] at he
      cases hf : dbFind s.heap s.db x with
      | none => rw [hf] at he; simp at he
      | some idx =>
        rw [hf] at he
        obtain ⟨db', hdb', heq⟩ := Option.map_eq_some'.mp he
        obtain ⟨hle, hnone, rfl⟩ := tryInsert_eq_some hdb'
        cases heq
        exact ⟨rfl, idx + 1, hle, hnone, rfl⟩

/-- Inversion for `removeTask`. -/
theorem removeTask_eq_some {s : Store} {t : Nat} {s' : Store} {rem i : Nat}
    (he : removeTask s t = some (s', rem, i)) :
    dbFind s.heap s.db t = some i ∧ s.db[i]? = some rem ∧
      s' = { s with db := s.db.eraseIdx i } := by
  rw [removeTask] at he
  split at he
  · rename_i idx hf
    split at he
    · rename_i removed hg
      simp only [Option.some.injEq, Prod.mk.injEq] at he
      obtain ⟨h1, h2, h3⟩ := he
      subst h3
      subst h2
      exact ⟨hf, hg, h1.symm⟩
    · simp at he
  · simp at he

/-- Inversion for `updateTask`. -/
theorem updateTask_eq_some {s : Store} {t : Nat} {o : TaskInner} {s' : Store} {b : TaskInner}
    (he : updateTask s t o = some (s', b)) :
    s.heap[t]? = some b ∧ s' = { s with heap := s.heap.set t o } := by
  rw [updateTask] at he
  obtain ⟨v, hv, heq⟩ := Option.map_eq_some'.mp he
  cases heq
  exact ⟨hv, rfl⟩

/-- The central specification of one operation step: a successful `exec` of a
well-formed operation on a store satisfying the identity invariant (a) can be
inverted exactly by `undo`, (b) preserves the invariant, and (c) yields an
operation whose re-`exec` (redo) behaves exactly like the original `exec`. -/
theorem exec_spec {op op' : TaskOp} {s s' : Store} {r : Option Nat}
    (hInv : Inv s) (hWf : WfOp s op) (hexec : op.exec s = some (op', s', r)) :
    (∃ r', op'.undo s' = some (s, r')) ∧ Inv s' ∧ op'.exec s = some (op', s', r) := by
  have hexec0 := hexec
  cases op with
  | add task after =>
    simp only [TaskOp.exec] at hexec
    obtain ⟨⟨s1, res⟩, hadd, heq⟩ := Option.map_eq_some'.mp hexec
    obtain ⟨rfl, i, hi, hnone, rfl⟩ := addTask_eq_some hadd
    cases heq
    refine ⟨⟨none, ?_⟩, ?_, hexec0⟩
    · have hfind : dbFind s.heap (s.db.insertIdx i res) res = some i :=
        dbFind_insertIdx_self hi hnone
      have hilt : i < (s.db.insertIdx i res).length := by
        rw [List.length_insertIdx i s.db hi]
        omega
      have hget : (s.db.insertIdx i res)[i]? = some res := by
        rw [List.getElem?_eq_getElem hilt, List.getElem_insertIdx_self s.db res i hi]
      simp only [TaskOp.undo, removeTask, hfind, hget, List.eraseIdx_insertIdx,
        Option.map_some']
    · refine ((insertIdx_perm res i s.db hi).pairwise_iff (fun hxy => Ne.symm hxy)).mpr ?_
      exact List.pairwise_cons.mpr
        ⟨fun x hx => Ne.symm (dbFind_eq_none_iff.mp hnone x hx), hInv⟩
  | remove task position =>
    simp only [TaskOp.exec] at hexec
    obtain ⟨⟨s1, rem, i⟩, hrem, heq⟩ := Option.map_eq_some'.mp hexec
    obtain ⟨hfind, hget, rfl⟩ := removeTask_eq_some hrem
    cases heq
    obtain ⟨i', hfind', hget'⟩ := dbFind_self_of_mem hInv hWf
    rw [hfind] at hfind'
    cases hfind'
    have htask : rem = task := by
      rw [hget] at hget'
      exact (Option.some.injEq _ _).mp hget'
    subst htask
    have hlt := dbFind_lt_length hfind
    refine ⟨⟨some rem, ?_⟩, List.Pairwise.sublist (List.eraseIdx_sublist s.db i) hInv, ?_⟩
    · have hcond : i ≤ (s.db.eraseIdx i).length ∧
          dbFind s.heap (s.db.eraseIdx i) rem = none := by
        refine ⟨?_, dbFind_eraseIdx_none hInv hget⟩
        rw [List.length_eraseIdx_of_lt hlt]
        omega
      simp only [TaskOp.undo, tryInsert, if_pos hcond, Option.map_some']
      rw [insertIdx_eraseIdx_getElem i s.db rem hget]
    · simp only [TaskOp.exec, hrem, Option.map_some']
  | update task updated before =>
    simp only [TaskOp.exec] at hexec
    obtain ⟨⟨s1, b⟩, hupd, heq⟩ := Option.map_eq_some'.mp hexec
    obtain ⟨hget, rfl⟩ := updateTask_eq_some hupd
    cases heq
    have hlen : task < s.heap.length := (List.getElem?_eq_some.mp hget).1
    refine ⟨?_, ?_, ?_⟩
    · have h1 : (s.heap.set task updated)[task]? = some updated :=
        List.getElem?_set_self (by simpa using hlen)
      have hrestore : (s.heap.set task updated).set task b = s.heap := by
        rw [List.set_set]
        exact set_of_getElem? hget
      obtain ⟨i', hfind', hget'⟩ := dbFind_self_of_mem hInv hWf.1
      refine ⟨some task, ?_⟩
      simp only [TaskOp.undo, updateTask, h1, Option.map_some', hrestore, hfind', hget']
    · refine hInv.imp ?_
      intro a c hac
      rw [taskId_set hWf.2, taskId_set hWf.2]
      exact hac
    · simp only [TaskOp.exec, hupd, Option.map_some']
  | move fromIdx target slot =>
    simp only [TaskOp.exec] at hexec
    split at hexec
    · rename_i removed hfrom
      obtain ⟨⟨s1, res⟩, hadd, heq⟩ := Option.map_eq_some'.mp hexec
      obtain ⟨rfl, j, hj, hnone, hs1⟩ := addTask_eq_some hadd
      cases heq
      subst hs1
      have hfromlt : fromIdx < s.db.length := (List.getElem?_eq_some.mp hfrom).1
      refine ⟨⟨some res, ?_⟩, ?_, ?_⟩
      · have hfind' : dbFind s.heap ((s.db.eraseIdx fromIdx).insertIdx j res) res = some j :=
          dbFind_insertIdx_self hj hnone
        have hjlt : j < ((s.db.eraseIdx fromIdx).insertIdx j res).length := by
          rw [List.length_insertIdx j _ hj]
          omega
        have hget' : ((s.db.eraseIdx fromIdx).insertIdx j res)[j]? = some res := by
          rw [List.getElem?_eq_getElem hjlt,
            List.getElem_insertIdx_self (s.db.eraseIdx fromIdx) res j hj]
        have hcond : fromIdx ≤ (s.db.eraseIdx fromIdx).length ∧
            dbFind s.heap (s.db.eraseIdx fromIdx) res = none := by
          refine ⟨?_, hnone⟩
          rw [List.length_eraseIdx_of_lt hfromlt]
          omega
        simp only [TaskOp.undo, removeTask, hfind', hget', List.eraseIdx_insertIdx,
          tryInsert, if_pos hcond, Option.map_some']
        rw [insertIdx_eraseIdx_getElem fromIdx s.db res hfrom]
      · refine ((insertIdx_perm res j _ hj).pairwise_iff (fun hxy => Ne.symm hxy)).mpr ?_
        exact List.pairwise_cons.mpr
          ⟨fun x hx => Ne.symm (dbFind_eq_none_iff.mp hnone x hx),
            List.Pairwise.sublist (List.eraseIdx_sublist s.db fromIdx) hInv⟩
      · simp only [TaskOp.exec, hfrom, hadd, Option.map_some']
    · simp at hexec

/-- Unfolding `undoN` at the far end: one more undo after `n` undos. -/
theorem undoN_succ_of (n : Nat) :
    ∀ (ops : Ops) (s : Store) (ops' : Ops) (s' : Store) (q : Ops × Store × Option (Option Nat)),
      undoN n ops s = some (ops', s') → ops'.undo s' = some q →
      undoN (n + 1) ops s = some (q.1, q.2.1) := by
  induction n with
  | zero =>
    intro ops s ops' s' q h hq
    simp only [undoN] at h
    cases h
    simp only [undoN, hq]
  | succ n ih =>
    intro ops s ops' s' q h hq
    simp only [undoN] at h ⊢
    cases hx : ops.undo s with
    | none => rw [hx] at h; simp at h
    | some p =>
      rw [hx] at h
      exact ih p.1 p.2.1 ops' s' q h hq

/-- Round trip through the log: executing a well-formed sequence that fits in
the remaining history capacity and then undoing as many times restores the
store exactly and pops the log back to its original undo-stack. -/
theorem execList_undo_roundtrip :
    ∀ (l : List TaskOp) (s : Store) (u rs : List TaskOp) (cap : Nat) (ops1 : Ops) (s1 : Store),
      Inv s → wfSeqB s l = true → l.length + u.length ≤ cap →
      execList l ⟨u, rs, cap⟩ s = some (ops1, s1) →
      ∃ ops2, undoN l.length ops1 s1 = some (ops2, s) ∧
        ops2.undoStack = u ∧ ops2.maxCount = cap := by
  intro l
  induction l with
  | nil =>
    intro s u rs cap ops1 s1 _ _ _ hexec
    simp only [execList] at hexec
    cases hexec
    exact ⟨⟨u, rs, cap⟩, rfl, rfl, rfl⟩
  | cons op rest ih =>
    intro s u rs cap ops1 s1 hInv hwf hlen hexec
    simp only [execList, Ops.exec] at hexec
    cases hx : op.exec s with
    | none => rw [hx] at hexec; simp at hexec
    | some q =>
      obtain ⟨op', s', r⟩ := q
      simp only [hx, Option.map_some'] at hexec
      simp only [wfSeqB, hx, Bool.and_eq_true, decide_eq_true_eq] at hwf
      obtain ⟨hwfop, hwfrest⟩ := hwf
      obtain ⟨⟨r', hundo⟩, hInv', _⟩ := exec_spec hInv hwfop hx
      have htake : (op' :: u).take cap = op' :: u := by
        apply List.take_of_length_le
        simp only [List.length_cons] at hlen ⊢
        omega
      rw [htake] at hexec
      obtain ⟨ops2, hund, hstack, hmax⟩ :=
        ih s' (op' :: u) [] cap ops1 s1 hInv' hwfrest
          (by simp only [List.length_cons] at hlen ⊢; omega) hexec
      refine ⟨⟨u, op' :: ops2.redoStack, ops2.maxCount⟩, ?_, rfl, hmax⟩
      have hu : Ops.undo ops2 s' =
          some (⟨u, op' :: ops2.redoStack, ops2.maxCount⟩, s, some r') := by
        simp only [Ops.undo, hstack, hundo, Option.map_some']
      have := undoN_succ_of rest.length ops1 s1 ops2 s' _ hund hu
      simpa using this

/-- With pairwise distinct identities, `dbFind` of the handle stored at a
position returns exactly that position. -/
theorem dbFind_eq_of_getElem? {h : Heap} {db : List Nat} {t i : Nat}
    (hp : db.Pairwise fun a b => taskId h a ≠ taskId h b) (hget : db[i]? = some t) :
    dbFind h db t = some i := by
  obtain ⟨i', hfind, hget'⟩ := dbFind_self_of_mem hp (List.mem_iff_getElem?.mpr ⟨i, hget⟩)
  obtain ⟨hi, hgi⟩ := List.getElem?_eq_some.mp hget
  obtain ⟨hi', hgi'⟩ := List.getElem?_eq_some.mp hget'
  rcases Nat.lt_trichotomy i' i with hlt | heq | hlt
  · rw [List.pairwise_iff_getElem] at hp
    exact absurd (by rw [hgi, hgi']) (hp i' i hi' hi hlt)
  · rw [← heq]
    exact hfind
  · rw [List.pairwise_iff_getElem] at hp
    exact absurd (by rw [hgi, hgi']) (hp i i' hi hi' hlt)

/-- Two store members with the same identity are the same handle. -/
theorem mem_id_inj {s : Store} (hInv : Inv s) {a b : Nat}
    (ha : a ∈ s.db) (hb : b ∈ s.db) (hid : taskId s.heap a = taskId s.heap b) : a = b := by
  by_contra hne
  have hp : s.db.Pairwise fun x y => taskId s.heap x ≠ taskId s.heap y := hInv
  exact (hp.forall (fun _ _ hxy => Ne.symm hxy) ha hb hne) hid

/-- C5: for a Remove of the entity stored at index `i`, `exec` removes it and
records `i` in the operation's position slot, and the recorded operation's
`undo` re-inserts the entity at exactly index `i`, restoring the store. -/
theorem remove_records_position_and_undo_reinserts (s : Store) (task i : Nat)
    (hInv : Inv s) (hget : s.db[i]? = some task) :
    (TaskOp.remove task none).exec s =
        some (.remove task (some i), ⟨s.heap, s.db.eraseIdx i⟩, none) ∧
      (TaskOp.remove task (some i)).undo ⟨s.heap, s.db.eraseIdx i⟩ = some (s, some task) := by
  have hfind := dbFind_eq_of_getElem? hInv hget
  have hlt := dbFind_lt_length hfind
  constructor
  · simp only [TaskOp.exec, removeTask, hfind, hget, Option.map_some']
  · have hcond : i ≤ (s.db.eraseIdx i).length ∧
        dbFind s.heap (s.db.eraseIdx i) task = none := by
      refine ⟨?_, dbFind_eraseIdx_none hInv hget⟩
      rw [List.length_eraseIdx_of_lt hlt]
      omega
    simp only [TaskOp.undo, tryInsert, if_pos hcond, Option.map_some']
    rw [insertIdx_eraseIdx_getElem i s.db task hget]

/-- C5 witness: the concrete spec scenario, removing the middle of three
tasks and restoring it at index 1. -/
theorem remove_records_position_witness :
    Inv ⟨[⟨1, "1", [], []⟩, ⟨2, "2", [], []⟩, ⟨3, "3", [], []⟩], [0, 1, 2]⟩ ∧
    (TaskOp.remove 1 none).exec
        ⟨[⟨1, "1", [], []⟩, ⟨2, "2", [], []⟩, ⟨3, "3", [], []⟩], [0, 1, 2]⟩ =
      some (.remove 1 (some 1),
        ⟨[⟨1, "1", [], []⟩, ⟨2, "2", [], []⟩, ⟨3, "3", [], []⟩], [0, 2]⟩, none) ∧
    (TaskOp.remove 1 (some 1)).undo
        ⟨[⟨1, "1", [], []⟩, ⟨2, "2", [], []⟩, ⟨3, "3", [], []⟩], [0, 2]⟩ =
      some (⟨[⟨1, "1", [], []⟩, ⟨2, "2", [], []⟩, ⟨3, "3", [], []⟩], [0, 1, 2]⟩, some 1) := by
  refine ⟨by decide, ?_⟩
  have h := remove_records_position_and_undo_reinserts
    ⟨[⟨1, "1", [], []⟩, ⟨2, "2", [], []⟩, ⟨3, "3", [], []⟩], [0, 1, 2]⟩ 1 1
    (by decide) (by decide)
  exact ⟨h.1, h.2⟩

/-- C6: moving an entity before or after a store entity denoting the same
identity is a no-op: the facade state (store order and log depth included)
is returned unchanged. -/
theorem move_to_self_noop (t : Tasks) (toMove other : Nat) (hInv : Inv t.state)
    (h1 : toMove ∈ t.state.db) (h2 : other ∈ t.state.db)
    (hid : taskId t.state.heap toMove = taskId t.state.heap other) :
    t.moveBefore toMove other = some t ∧ t.moveAfter toMove other = some t := by
  have heq : toMove = other := mem_id_inj hInv h1 h2 hid
  subst heq
  constructor
  · simp [Tasks.moveBefore]
  · simp [Tasks.moveAfter]

/-- C6 witness: moving a task onto itself on a two-task facade. -/
theorem move_to_self_noop_witness :
    (Tasks.moveBefore ⟨[], ⟨[⟨1, "a", [], []⟩, ⟨2, "b", [], []⟩], [0, 1]⟩, Ops.new 64⟩ 0 0 =
        some ⟨[], ⟨[⟨1, "a", [], []⟩, ⟨2, "b", [], []⟩], [0, 1]⟩, Ops.new 64⟩) ∧
      (Tasks.moveAfter ⟨[], ⟨[⟨1, "a", [], []⟩, ⟨2, "b", [], []⟩], [0, 1]⟩, Ops.new 64⟩ 0 0 =
        some ⟨[], ⟨[⟨1, "a", [], []⟩, ⟨2, "b", [], []⟩], [0, 1]⟩, Ops.new 64⟩) :=
  move_to_self_noop ⟨[], ⟨[⟨1, "a", [], []⟩, ⟨2, "b", [], []⟩], [0, 1]⟩, Ops.new 64⟩ 0 0
    (by decide) (by decide) (by decide) (by decide)

/-- C7: a handle held before an Update observes the replacement's summary
and tags immediately after `exec`, through the handle itself (the store
sequence is untouched, so no re-fetch is involved), and when the replacement
carries the entity's identity — the facade always passes a deep copy — the
identity observed through the handle is unchanged. -/
theorem update_in_place_observed (s : Store) (a : Nat) (old repl : TaskInner)
    (_hmem : a ∈ s.db) (hget : s.heap[a]? = some old) (hid : repl.id = old.id) :
    (TaskOp.update a repl none).exec s =
        some (.update a repl (some old), ⟨s.heap.set a repl, s.db⟩, some a) ∧
      (s.heap.set a repl)[a]? = some repl ∧
      taskId (s.heap.set a repl) a = taskId s.heap a := by
  have hlen : a < s.heap.length := (List.getElem?_eq_some.mp hget).1
  have hset : (s.heap.set a repl)[a]? = some repl := List.getElem?_set_self hlen
  refine ⟨?_, hset, ?_⟩
  · simp only [TaskOp.exec, updateTask, hget, Option.map_some']
  · rw [taskId, taskId, hset, hget]
    simp [hid]

/-- C7 witness: updating a task's summary through its handle. -/
theorem update_in_place_observed_witness :
    (TaskOp.update 0 ⟨1, "new", [7], []⟩ none).exec ⟨[⟨1, "old", [], []⟩], [0]⟩ =
        some (.update 0 ⟨1, "new", [7], []⟩ (some ⟨1, "old", [], []⟩),
          ⟨[⟨1, "new", [7], []⟩], [0]⟩, some 0) ∧
      (([⟨1, "old", [], []⟩] : Heap).set 0 ⟨1, "new", [7], []⟩)[0]? = some ⟨1, "new", [7], []⟩ ∧
      taskId (([⟨1, "old", [], []⟩] : Heap).set 0 ⟨1, "new", [7], []⟩) 0 =
        taskId [⟨1, "old", [], []⟩] 0 :=
  update_in_place_observed ⟨[⟨1, "old", [], []⟩], [0]⟩ 0 ⟨1, "old", [], []⟩ ⟨1, "new", [7], []⟩
    (by decide) (by decide) (by decide)


/-- C2: through the log, `exec` of a well-formed operation followed by
`undo` followed by `redo` leaves the store in exactly the state `exec` alone
produced. -/
theorem exec_undo_redo_eq_exec (ops0 : Ops) (op : TaskOp) (s : Store)
    (q1 : Ops × Store × Option Nat) (q2 q3 : Ops × Store × Option (Option Nat))
    (hInv : Inv s) (hWf : WfOp s op)
    (h1 : ops0.exec op s = some q1)
    (h2 : q1.1.undo q1.2.1 = some q2)
    (h3 : q2.1.redo q2.2.1 = some q3) :
    q3.2.1 = q1.2.1 := by
  obtain ⟨u, rs, cap⟩ := ops0
  simp only [Ops.exec] at h1
  cases hx : op.exec s with
  | none => rw [hx] at h1; simp at h1
  | some p =>
    obtain ⟨op', s', r⟩ := p
    rw [hx] at h1
    simp only [Option.map_some'] at h1
    cases h1
    obtain ⟨⟨r', hundo⟩, hInv', hidem⟩ := exec_spec hInv hWf hx
    cases cap with
    | zero =>
      simp only [Ops.undo, List.take_zero] at h2
      cases h2
      simp only [Ops.redo] at h3
      cases h3
      rfl
    | succ n =>
      simp only [Ops.undo, List.take_succ_cons, hundo, Option.map_some'] at h2
      cases h2
      simp only [Ops.redo, hidem, Option.map_some'] at h3
      cases h3
      rfl

/-- C2 witness: add, undo, redo on a singleton heap; both runs end in the
store with the task present. -/
theorem exec_undo_redo_eq_exec_witness :
    (⟨[⟨1, "a", [], []⟩], [0]⟩ : Store) = ⟨[⟨1, "a", [], []⟩], [0]⟩ :=
  exec_undo_redo_eq_exec (Ops.new 3) (.add 0 none) ⟨[⟨1, "a", [], []⟩], []⟩
    (⟨[TaskOp.add 0 none], [], 3⟩, ⟨[⟨1, "a", [], []⟩], [0]⟩, some 0)
    (⟨[], [TaskOp.add 0 none], 3⟩, ⟨[⟨1, "a", [], []⟩], []⟩, some none)
    (⟨[TaskOp.add 0 none], [], 3⟩, ⟨[⟨1, "a", [], []⟩], [0]⟩, some (some 0))
    (by decide) (by decide) (by decide) (by decide) (by decide)

/-- C3: executing any operation through the log clears the redo-stack, so a
subsequent `redo` is the nothing-to-redo signal and leaves everything
unchanged — in particular after the scenario exec A, undo, exec B. -/
theorem exec_clears_redo (opsA : Ops) (a b : TaskOp) (s0 : Store)
    (q1 : Ops × Store × Option Nat) (q2 : Ops × Store × Option (Option Nat))
    (q3 : Ops × Store × Option Nat)
    (_h1 : opsA.exec a s0 = some q1)
    (_h2 : q1.1.undo q1.2.1 = some q2)
    (h3 : q2.1.exec b q2.2.1 = some q3) :
    q3.1.redo q3.2.1 = some (q3.1, q3.2.1, none) := by
  simp only [Ops.exec] at h3
  obtain ⟨p, hp, heq⟩ := Option.map_eq_some'.mp h3
  cases heq
  simp only [Ops.redo]

/-- C3 witness: add task 0, undo it, add task 1, then redo is a no-op. -/
theorem exec_clears_redo_witness :
    Ops.redo ⟨[TaskOp.add 1 none], [], 3⟩ ⟨[⟨1, "a", [], []⟩, ⟨2, "b", [], []⟩], [1]⟩ =
      some (⟨[TaskOp.add 1 none], [], 3⟩, ⟨[⟨1, "a", [], []⟩, ⟨2, "b", [], []⟩], [1]⟩, none) :=
  exec_clears_redo (Ops.new 3) (.add 0 none) (.add 1 none)
    ⟨[⟨1, "a", [], []⟩, ⟨2, "b", [], []⟩], []⟩
    (⟨[TaskOp.add 0 none], [], 3⟩, ⟨[⟨1, "a", [], []⟩, ⟨2, "b", [], []⟩], [0]⟩, some 0)
    (⟨[], [TaskOp.add 0 none], 3⟩, ⟨[⟨1, "a", [], []⟩, ⟨2, "b", [], []⟩], []⟩, some none)
    (⟨[TaskOp.add 1 none], [], 3⟩, ⟨[⟨1, "a", [], []⟩, ⟨2, "b", [], []⟩], [1]⟩, some 1)
    (by decide) (by decide) (by decide)

/-- C8 counterexample: for an Update, the result `exec` returns is the live
handle, which after `exec` observes the replacement content "b" — not a
snapshot of the pre-exec content "a" as the claim states. -/
theorem update_result_not_before_snapshot :
    (TaskOp.update 0 ⟨1, "b", [], []⟩ none).exec ⟨[⟨1, "a", [], []⟩], [0]⟩ =
        some (.update 0 ⟨1, "b", [], []⟩ (some ⟨1, "a", [], []⟩),
          ⟨[⟨1, "b", [], []⟩], [0]⟩, some 0) ∧
      (([⟨1, "b", [], []⟩] : Heap)[0]?).map TaskInner.summary = some "b" ∧
      some "b" ≠ some "a" := by
  decide

/-- C8 amended: `exec` of an Update returns the live handle (which then
observes the replacement content) and records the pre-exec snapshot in the
operation's before slot; `undo` restores that snapshot in place and returns
the live handle, which then observes the restored content. -/
theorem update_returns_live_handle (s : Store) (a : Nat) (old repl : TaskInner)
    (hInv : Inv s) (hmem : a ∈ s.db) (hget : s.heap[a]? = some old) :
    (TaskOp.update a repl none).exec s =
        some (.update a repl (some old), ⟨s.heap.set a repl, s.db⟩, some a) ∧
      (s.heap.set a repl)[a]? = some repl ∧
      (TaskOp.update a repl (some old)).undo ⟨s.heap.set a repl, s.db⟩ = some (s, some a) := by
  have hlen : a < s.heap.length := (List.getElem?_eq_some.mp hget).1
  have hset : (s.heap.set a repl)[a]? = some repl := List.getElem?_set_self hlen
  have hrestore : (s.heap.set a repl).set a old = s.heap := by
    rw [List.set_set]
    exact set_of_getElem? hget
  obtain ⟨i, hfind, hget'⟩ := dbFind_self_of_mem hInv hmem
  refine ⟨?_, hset, ?_⟩
  · simp only [TaskOp.exec, updateTask, hget, Option.map_some']
  · simp only [TaskOp.undo, updateTask, hset, Option.map_some', hrestore, hfind, hget']

/-- C8 amended witness: update summary "a" to "b"; exec returns handle 0 and
records the "a" snapshot; undo restores and returns handle 0. -/
theorem update_returns_live_handle_witness :
    (TaskOp.update 0 ⟨1, "b", [], []⟩ none).exec ⟨[⟨1, "a", [], []⟩], [0]⟩ =
        some (.update 0 ⟨1, "b", [], []⟩ (some ⟨1, "a", [], []⟩),
          ⟨([⟨1, "a", [], []⟩] : Heap).set 0 ⟨1, "b", [], []⟩, [0]⟩, some 0) ∧
      (([⟨1, "a", [], []⟩] : Heap).set 0 ⟨1, "b", [], []⟩)[0]? = some ⟨1, "b", [], []⟩ ∧
      (TaskOp.update 0 ⟨1, "b", [], []⟩ (some ⟨1, "a", [], []⟩)).undo
          ⟨([⟨1, "a", [], []⟩] : Heap).set 0 ⟨1, "b", [], []⟩, [0]⟩ =
        some (⟨[⟨1, "a", [], []⟩], [0]⟩, some 0) :=
  update_returns_live_handle ⟨[⟨1, "a", [], []⟩], [0]⟩ 0 ⟨1, "a", [], []⟩ ⟨1, "b", [], []⟩
    (by decide) (by decide) (by decide)

/-- C10: `Tasks::update` replaces the live entity's entire record by the
replacement snapshot — identity and templates reference included — so the
identity observed through the handle is preserved exactly when the
replacement carries the same identity. -/
theorem update_replaces_whole_record (t : Tasks) (a : Nat) (old repl : TaskInner)
    (hget : t.state.heap[a]? = some old) :
    t.update a repl = some
        { t with
          operations := ⟨(TaskOp.update a repl (some old) ::
              t.operations.undoStack).take t.operations.maxCount, [],
              t.operations.maxCount⟩,
          state := ⟨t.state.heap.set a repl, t.state.db⟩ } ∧
      (t.state.heap.set a repl)[a]? = some repl ∧
      ((t.state.heap.set a repl)[a]?).map TaskInner.templates = some repl.templates ∧
      (taskId (t.state.heap.set a repl) a = taskId t.state.heap a ↔ repl.id = old.id) := by
  have hlen : a < t.state.heap.length := (List.getElem?_eq_some.mp hget).1
  have hset : (t.state.heap.set a repl)[a]? = some repl := List.getElem?_set_self hlen
  refine ⟨?_, hset, ?_, ?_⟩
  · simp only [Tasks.update, Ops.exec, TaskOp.exec, updateTask, hget, Option.map_some']
  · rw [hset]
    rfl
  · rw [taskId, taskId, hset, hget]
    simp only [Option.map_some', Option.some.injEq]

/-- C10 witness: an update whose replacement changes the identity and the
templates reference; the live record becomes the replacement wholesale. -/
theorem update_replaces_whole_record_witness :
    Tasks.update ⟨[], ⟨[⟨1, "a", [], []⟩], [0]⟩, Ops.new 64⟩ 0 ⟨9, "b", [], [4]⟩ = some
        ⟨[], ⟨([⟨1, "a", [], []⟩] : Heap).set 0 ⟨9, "b", [], [4]⟩, [0]⟩,
          ⟨[TaskOp.update 0 ⟨9, "b", [], [4]⟩ (some ⟨1, "a", [], []⟩)], [], 64⟩⟩ ∧
      (([⟨1, "a", [], []⟩] : Heap).set 0 ⟨9, "b", [], [4]⟩)[0]? = some ⟨9, "b", [], [4]⟩ ∧
      ((([⟨1, "a", [], []⟩] : Heap).set 0 ⟨9, "b", [], [4]⟩)[0]?).map TaskInner.templates =
        some [4] ∧
      (taskId (([⟨1, "a", [], []⟩] : Heap).set 0 ⟨9, "b", [], [4]⟩) 0 =
          taskId [⟨1, "a", [], []⟩] 0 ↔ (9 : Nat) = 1) :=
  update_replaces_whole_record ⟨[], ⟨[⟨1, "a", [], []⟩], [0]⟩, Ops.new 64⟩ 0
    ⟨1, "a", [], []⟩ ⟨9, "b", [], [4]⟩ (by decide)

/-- Every exec/undo/redo call preserves the dual-stack size bound. -/
theorem runCalls_bound :
    ∀ (cs : List Call) (ops : Ops) (s : Store) (cap : Nat) (p : Ops × Store),
      OpsBound ops cap → runCalls cs ops s = some p → OpsBound p.1 cap := by
  intro cs
  induction cs with
  | nil =>
    intro ops s cap p hb h
    simp only [runCalls] at h
    cases h
    exact hb
  | cons c rest ih =>
    intro ops s cap p hb h
    cases c with
    | exec op =>
      simp only [runCalls, Ops.exec] at h
      cases hx : op.exec s with
      | none => rw [hx] at h; simp at h
      | some q =>
        rw [hx] at h
        simp only [Option.map_some'] at h
        refine ih _ _ cap p ?_ h
        refine ⟨?_, hb.2⟩
        have h1 := List.length_take_le ops.maxCount (q.1 :: ops.undoStack)
        have h2 := hb.2
        show ((q.1 :: ops.undoStack).take ops.maxCount).length + ([] : List TaskOp).length ≤ cap
        simp only [List.length_nil, Nat.add_zero]
        omega
    | undo =>
      obtain ⟨u, rds, mc⟩ := ops
      cases u with
      | nil =>
        simp only [runCalls, Ops.undo] at h
        exact ih _ _ cap p hb h
      | cons op u' =>
        simp only [runCalls, Ops.undo] at h
        cases hx : op.undo s with
        | none => rw [hx] at h; simp at h
        | some q =>
          rw [hx] at h
          simp only [Option.map_some'] at h
          refine ih _ _ cap p ?_ h
          have hb1 : (op :: u').length + rds.length ≤ cap := hb.1
          refine ⟨?_, hb.2⟩
          show u'.length + (op :: rds).length ≤ cap
          simp only [List.length_cons] at hb1 ⊢
          omega
    | redo =>
      obtain ⟨u, rds, mc⟩ := ops
      cases rds with
      | nil =>
        simp only [runCalls, Ops.redo] at h
        exact ih _ _ cap p hb h
      | cons op r' =>
        simp only [runCalls, Ops.redo] at h
        cases hx : op.exec s with
        | none => rw [hx] at h; simp at h
        | some q =>
          rw [hx] at h
          simp only [Option.map_some'] at h
          refine ih _ _ cap p ?_ h
          have hb1 : u.length + (op :: r').length ≤ cap := hb.1
          refine ⟨?_, hb.2⟩
          show (q.1 :: u).length + r'.length ≤ cap
          simp only [List.length_cons] at hb1 ⊢
          omega


/-- Instantiating a tag list succeeds exactly when every tag id is known to
the registry, whatever tag set has been accumulated so far. -/
theorem instantiateTags_ok (templates : List Nat) :
    ∀ (l acc : List Nat),
      isOkB (instantiateTags templates l acc) = true ↔
        ∀ tg ∈ l, (instantiate templates tg).isSome = true := by
  intro l
  induction l with
  | nil =>
    intro acc
    simp [instantiateTags, isOkB]
  | cons x xs ih =>
    intro acc
    cases hx : instantiate templates x with
    | some tg =>
      simp only [instantiateTags, hx]
      rw [ih]
      simp [List.forall_mem_cons, hx]
    | none =>
      simp only [instantiateTags, hx]
      simp only [isOkB, List.forall_mem_cons]
      refine ⟨fun hc => absurd hc (by simp), fun hall => ?_⟩
      have := hall.1
      rw [hx] at this
      simp at this

/-- Building one task from its serialized form succeeds exactly when all its
tag ids are instantiable. -/
theorem taskWithSerde_ok (id : Nat) (t : SerTask) (templates : List Nat) :
    isOkB (Task.withSerde id t templates) = true ↔
      ∀ tg ∈ t.tags, (instantiate templates tg).isSome = true := by
  have h := instantiateTags_ok templates t.tags []
  cases hx : instantiateTags templates t.tags [] with
  | ok tags =>
    rw [hx] at h
    simp only [Task.withSerde, hx]
    simpa [isOkB] using h
  | error e =>
    rw [hx] at h
    simp only [Task.withSerde, hx]
    simpa [isOkB] using h

/-- The fold over serialized tasks succeeds exactly when every task's tags
are all instantiable, whatever has been accumulated so far. -/
theorem buildTasks_ok (templates : List Nat) :
    ∀ (l : List (Nat × SerTask)) (vec : List TaskInner),
      isOkB (buildTasks templates l vec) = true ↔
        ∀ p ∈ l, ∀ tg ∈ p.2.tags, (instantiate templates tg).isSome = true := by
  intro l
  induction l with
  | nil =>
    intro vec
    simp [buildTasks, isOkB]
  | cons q rest ih =>
    intro vec
    have h := taskWithSerde_ok q.1 q.2 templates
    cases hx : Task.withSerde q.1 q.2 templates with
    | ok task =>
      rw [hx] at h
      simp only [isOkB] at h
      simp only [buildTasks, hx]
      rw [ih]
      have hq := h.mp trivial
      simp only [List.forall_mem_cons]
      exact ⟨fun hrest => ⟨hq, hrest⟩, fun hall => hall.2⟩
    | error e =>
      rw [hx] at h
      simp only [isOkB] at h
      simp only [buildTasks, hx]
      simp only [isOkB, List.forall_mem_cons]
      refine ⟨fun hc => absurd hc (by simp), fun hall => ?_⟩
      exact absurd (h.mpr hall.1) (by simp)

/-- C9: constructing the facade from serialized tasks succeeds if and only
if every referenced tag id is instantiable from the template registry; on
failure the constructor yields only the typed error, never a store. -/
theorem withSerde_ok_iff_tags_instantiable (tasks : List (Nat × SerTask))
    (templates : List Nat) :
    (isOkB (Tasks.withSerde tasks templates) = true ↔
      ∀ p ∈ tasks, ∀ tg ∈ p.2.tags, (instantiate templates tg).isSome = true) ∧
    (∀ e, Tasks.withSerde tasks templates = Except.error e →
      ¬ ∃ t, Tasks.withSerde tasks templates = Except.ok t) := by
  constructor
  · have h := buildTasks_ok templates tasks []
    cases hx : buildTasks templates tasks [] with
    | ok vec =>
      rw [hx] at h
      simp only [Tasks.withSerde, hx]
      simpa [isOkB] using h
    | error e =>
      rw [hx] at h
      simp only [Tasks.withSerde, hx]
      simpa [isOkB] using h
  · rintro e he ⟨t, ht⟩
    rw [he] at ht
    exact Except.noConfusion ht

/-- C9 witness: a registry holding template 5 accepts a task tagged 5, and
rejecting follows from the same equivalence on an unknown tag id 7. -/
theorem withSerde_ok_iff_witness :
    isOkB (Tasks.withSerde [(1, ⟨"a", [5]⟩), (2, ⟨"b", []⟩)] [5]) = true ∧
      isOkB (Tasks.withSerde [(1, ⟨"a", [5]⟩), (2, ⟨"b", [7]⟩)] [5]) ≠ true :=
  ⟨(withSerde_ok_iff_tags_instantiable [(1, ⟨"a", [5]⟩), (2, ⟨"b", []⟩)] [5]).1.mpr
      (by decide),
    fun hc =>
      absurd ((withSerde_ok_iff_tags_instantiable [(1, ⟨"a", [5]⟩), (2, ⟨"b", [7]⟩)] [5]).1.mp hc)
        (by decide)⟩

/-- C1 (amended): a well-formed sequence of at most `MAX_UNDO_STEP_COUNT`
operations executed through a fresh log, followed by as many undos, restores
a store whose identity order and per-entity summary and tags are identical
to the initial store's. -/
theorem exec_seq_undo_restores (l : List TaskOp) (s0 : Store) (ops1 : Ops) (s1 : Store)
    (hInv : Inv s0) (hwf : wfSeqB s0 l = true) (hlen : l.length ≤ MAX_UNDO_STEP_COUNT)
    (hexec : execList l (Ops.new MAX_UNDO_STEP_COUNT) s0 = some (ops1, s1)) :
    (undoN l.length ops1 s1).map (fun p => (idSeq p.2, contentSeq p.2)) =
      some (idSeq s0, contentSeq s0) := by
  have hexec' : execList l ⟨[], [], MAX_UNDO_STEP_COUNT⟩ s0 = some (ops1, s1) := hexec
  obtain ⟨ops2, hund, _, _⟩ :=
    execList_undo_roundtrip l s0 [] [] MAX_UNDO_STEP_COUNT ops1 s1 hInv hwf
      (by simpa using hlen) hexec'
  rw [hund]
  rfl

/-- C1 witness: add a task then remove it; two undos restore the empty
store. -/
theorem exec_seq_undo_restores_witness :
    (undoN 2 ⟨[TaskOp.remove 0 (some 0), TaskOp.add 0 none], [], MAX_UNDO_STEP_COUNT⟩
        ⟨[⟨1, "a", [], []⟩], []⟩).map (fun p => (idSeq p.2, contentSeq p.2)) =
      some (idSeq ⟨[⟨1, "a", [], []⟩], []⟩, contentSeq ⟨[⟨1, "a", [], []⟩], []⟩) :=
  exec_seq_undo_restores [.add 0 none, .remove 0 none] ⟨[⟨1, "a", [], []⟩], []⟩
    ⟨[TaskOp.remove 0 (some 0), TaskOp.add 0 none], [], MAX_UNDO_STEP_COUNT⟩
    ⟨[⟨1, "a", [], []⟩], []⟩ (by decide) (by decide) (by decide) (by decide)

/-- C1 counterexample: 65 Adds on an initially empty store executed through
a fresh log of depth 64, then 65 undos, leave one task behind — the store is
not order-identical to the (empty) initial store, so the claim fails for
sequences longer than the history depth. -/
theorem undo_all_fails_beyond_capacity :
    bigAdds.length = 65 ∧
    idSeq ⟨bigHeap, []⟩ = [] ∧
    ((execList bigAdds (Ops.new MAX_UNDO_STEP_COUNT) ⟨bigHeap, []⟩).bind fun p =>
        undoN bigAdds.length p.1 p.2).map (fun p => idSeq p.2) = some [some 1] ∧
    some [some 1] ≠ some ([] : List (Option Nat)) := by
  refine ⟨by decide, by decide, by decide, by decide⟩

/-- C4: (a) after any successful sequence of exec/undo/redo calls on a fresh
log of depth `MAX_UNDO_STEP_COUNT`, the undo-stack holds at most
`MAX_UNDO_STEP_COUNT` operations; (b) when the undo-stack is full, `exec`
evicts exactly the oldest entry; (c) concretely, after 65 Adds, 65 undos
empty the history but recover only the most recent 64 operations: one task
remains. -/
theorem undo_stack_bounded :
    (∀ (cs : List Call) (s0 : Store) (p : Ops × Store),
        runCalls cs (Ops.new MAX_UNDO_STEP_COUNT) s0 = some p →
        p.1.undoStack.length ≤ MAX_UNDO_STEP_COUNT) ∧
    (∀ (ops : Ops) (op : TaskOp) (s : Store) (q : Ops × Store × Option Nat),
        ops.undoStack.length = ops.maxCount → 1 ≤ ops.maxCount →
        ops.exec op s = some q →
        ∃ op', op.exec s = some (op', q.2.1, q.2.2) ∧
          q.1.undoStack = op' :: ops.undoStack.dropLast) ∧
    ((execList bigAdds (Ops.new MAX_UNDO_STEP_COUNT) ⟨bigHeap, []⟩).bind fun p =>
        undoN 65 p.1 p.2).map (fun p => (p.1.undoStack.length, p.2.db)) =
      some (0, [0]) := by
  refine ⟨?_, ?_, by decide⟩
  · intro cs s0 p h
    have hb := runCalls_bound cs (Ops.new MAX_UNDO_STEP_COUNT) s0 MAX_UNDO_STEP_COUNT p
      ⟨by simp [Ops.new], rfl⟩ h
    have h1 := hb.1
    omega
  · intro ops op s q hfull hpos hexec
    simp only [Ops.exec] at hexec
    obtain ⟨p, hp, heq⟩ := Option.map_eq_some'.mp hexec
    cases heq
    refine ⟨p.1, hp, ?_⟩
    show (p.1 :: ops.undoStack).take ops.maxCount = p.1 :: ops.undoStack.dropLast
    cases hm : ops.maxCount with
    | zero => omega
    | succ n =>
      rw [List.take_succ_cons, List.dropLast_eq_take, hfull, hm]
      simp

/-- C4 witness: the empty call sequence on a fresh log keeps the undo-stack
within the bound. -/
theorem undo_stack_bounded_witness :
    ((Ops.new MAX_UNDO_STEP_COUNT, (⟨[], []⟩ : Store)) :
        Ops × Store).1.undoStack.length ≤ MAX_UNDO_STEP_COUNT :=
  undo_stack_bounded.1 [] ⟨[], []⟩ (Ops.new MAX_UNDO_STEP_COUNT, ⟨[], []⟩) rfl

end NotNow
